import Mathlib

/-!
A shallow embedding of the CBOR codec in `src/modcbor.c` (the `ucbor` MicroPython module),
and proofs checking the natural-language specification against it.

Modelling conventions, used throughout:

* Byte buffers (`vstr_t` contents and input buffers) are `List ℕ` whose elements are byte
  values.  `vstr_add_byte`/`vstr_add_strn` append; `vstr_add_len` appends fresh bytes whose
  C contents are uninitialized — they are modelled as `0`, and a comment marks each use.
* Machine integers are `ℕ`/`ℤ` with explicit `/ 2 ^ k`, `% 2 ^ k` arithmetic.  A C mask of
  contiguous low bits `x & (2^k - 1)` is written `x % 2 ^ k`, a shift `x >> k` is written
  `x / 2 ^ k`, and `x & 0x80` on a byte is written `x / 128 * 128`; disjoint ORs are `+`.
* Doubles are carried as their 64-bit IEEE-754 pattern (a `ℕ` below `2 ^ 64`); the C code
  manipulates them through the `fp_dp.i8[]` byte view, modelled by `i8` below.
* Fallible code returns `Except CborErr`.  A read past the end of a buffer is undefined
  behavior in the C source (it has no bounds check at those points); the model returns the
  distinguished outcome `CborErr.outOfBoundsRead` there.
* The host runtime (MicroPython) is an external collaborator.  Its helpers that the codec
  calls (`mp_binary_set_int`, `mpz_as_bytes`, `mp_obj_dict_store`, `list.sort`, the small
  integer representation) are modelled from their documented behavior, on a standard
  64-bit port; each model carries a comment saying what it stands for.
-/

/-- Error outcomes of the codec.  The C code raises `ValueError` with distinct messages;
the constructors below correspond one-to-one to those raise sites, plus two artifacts of
the embedding (`outOfBoundsRead` marks a read past the end of the buffer, which is
undefined behavior in C, and `fuelExhausted` is the exhaustion marker of the fuel-indexed
recursion, never reached with sufficient fuel). -/
inductive CborErr where
  | outOfBoundsRead
  | fuelExhausted
  | invalidAddInfo
  | bufferTooSmall
  | unsupportedMajor
  | unsupportedAddInfo
  | machineWordOverflow
  deriving DecidableEq

mutual

/-- The host value tree the codec operates on: one constructor per host type appearing in
`dump_functions_map` (int, float, bool, NoneType, str, bytes, bytearray, memoryview,
list, tuple, dict).  Floats carry their 64-bit IEEE-754 bit pattern; text strings carry
their UTF-8 bytes (the codec never validates or decodes UTF-8). -/
inductive HostValue where
  | int (n : ℤ)
  | float (bits : ℕ)
  | bool (b : Bool)
  | noneV
  | str (bs : List ℕ)
  | bytes (bs : List ℕ)
  | bytearray (bs : List ℕ)
  | memoryview (bs : List ℕ)
  | list (xs : HostValueList)
  | tuple (xs : HostValueList)
  | dict (ps : HostValuePairs)

/-- A sequence of host values (elements of a list/tuple, in order). -/
inductive HostValueList where
  | nil
  | cons (x : HostValue) (xs : HostValueList)

/-- A sequence of key/value pairs of a dict, in insertion order.  The data model of the spec
describes a map as an ordered sequence of pairs; this is that sequence. -/
inductive HostValuePairs where
  | nil
  | cons (k : HostValue) (v : HostValue) (ps : HostValuePairs)

end

/-- Number of elements of a `HostValueList` (`array_len` from `mp_obj_get_array`). -/
def HostValueList.length : HostValueList → ℕ
  | .nil => 0
  | .cons _ xs => xs.length + 1

/-- Number of pairs of a `HostValuePairs` (`map->used`). -/
def HostValuePairs.length : HostValuePairs → ℕ
  | .nil => 0
  | .cons _ _ ps => ps.length + 1

/-- View of a `HostValuePairs` as a plain list of pairs, in the same order. -/
def HostValuePairs.toList : HostValuePairs → List (HostValue × HostValue)
  | .nil => []
  | .cons k v ps => (k, v) :: ps.toList

/-- Big-endian byte image of the low `8 * k` bits of `d`: the bytes that
`mp_binary_set_int(k, 1, p, d)` stores (most significant first, each byte
`(d >> 8*i) & 0xff`). -/
def bytesBE : ℕ → ℕ → List ℕ
  | 0, _ => []
  | k + 1, d => (d / 2 ^ (8 * k) % 256) :: bytesBE k d

/-- Big-endian value of a byte list: the unsigned integer that
`mp_obj_int_from_bytes_impl(true, len, buf)` builds. -/
def fromBE : List ℕ → ℕ
  | [] => 0
  | b :: l => b * 2 ^ (8 * l.length) + fromBE l

/-- Overwrite the bytes of `v` at offsets `pos ..= pos + p.length - 1` with `p`.  This
models a raw pointer write `memcpy(v + pos, p, p.length)` into an existing buffer. -/
def writeAt (v : List ℕ) (pos : ℕ) (p : List ℕ) : List ℕ :=
  v.take pos ++ p ++ v.drop (pos + p.length)

/-- Fuel-indexed bit-length worker (the fuel only serves termination; `n` itself is
always sufficient fuel since `Nat.log2 n ≤ n`). -/
def bitLenAux : ℕ → ℕ → ℕ
  | 0, _ => 0
  | f + 1, n => if n = 0 then 0 else bitLenAux f (n / 2) + 1

/-- Bit length of a natural number, as computed by `int_bit_length` in the source (which
takes the absolute value of its argument and counts how many right-shifts by one reach
zero; zero has bit length zero). -/
def int_bit_length (n : ℕ) : ℕ := bitLenAux n n

/-- MP_OBJ_IS_SMALL_INT: whether the host stores `n` inline.  Modelled for a standard
64-bit MicroPython port, where small integers are 63-bit twos-complement, i.e. the
range `[-2^62, 2^62)`.  (The spec, which says magnitudes exceeding 64 bits take the
big-number path, likewise assumes a 64-bit port.) -/
def isSmall (n : ℤ) : Bool := decide (-(2 ^ 62) ≤ n) && decide (n < 2 ^ 62)

/-- Encoder for one integer with a given major type: `cbor_dump_int_with_major_type`.

The function appends to the shared output buffer `v` (the `data_vstr`).  Note two
faithfully reproduced details of the source:

* In every multi-byte branch the payload is written through `byte *p = data_vstr->buf + 1`,
  i.e. at absolute offset 1 of the whole buffer — not at the end where `vstr_add_len`
  grew it.  `writeAt … 1 …` models exactly that.  The bytes appended by `vstr_add_len`
  are uninitialized in C; they are modelled as `0`.
* In the non-small (`mpz`) branch the major type is **not** shifted left by 5 (the small
  branch reassigns `mt = mt << 5`, the big branch uses the original `mt | 27`), the sign
  of `n` is not inspected, and `mpz_as_bytes(o, 1, data_vstr->len - 1, buf + 1)` writes
  the twos-complement image of `n` over `data_vstr->len - 1` bytes starting at offset 1.
  `mpz_as_bytes` over `L` bytes produces the big-endian image of `n mod 2^(8L)`
  (plain magnitude bytes for `n ≥ 0`, twos-complement with `0xff` sign fill for `n < 0`). -/
def cbor_dump_int_with_major_type (mt : ℕ) (n : ℤ) (v : List ℕ) : List ℕ :=
  if isSmall n then
    let mts : ℕ := (if n < 0 then 1 else mt) * 32
    let data : ℕ := (if n < 0 then -1 - n else n).toNat
    if data ≤ 23 then
      v ++ [mts + data]
    else if data ≤ 0xff then
      v ++ [mts + 24, data]
    else if data ≤ 0xffff then
      writeAt (v ++ [mts + 25] ++ List.replicate 2 0) 1 (bytesBE 2 data)
    else if data ≤ 0xffffffff then
      writeAt (v ++ [mts + 26] ++ List.replicate 4 0) 1 (bytesBE 4 data)
    else
      writeAt (v ++ [mts + 27] ++ List.replicate 8 0) 1 (bytesBE 8 data)
  else
    let size := (int_bit_length n.natAbs + 7) / 8
    let v2 := v ++ [mt ||| 27] ++ List.replicate size 0
    writeAt v2 1 (bytesBE (v2.length - 1) ((n % (2 ^ (8 * (v2.length - 1)) : ℤ)).toNat))

/-- Byte `k` (little-endian index) of a 64-bit pattern: the union view `fp_dp.i8[k]`. -/
def i8 (bits k : ℕ) : ℕ := bits / 2 ^ (8 * k) % 256

/-- Bits of the positive double with value `m * 2 ^ (-24)`, for `1 ≤ m < 1024`.  The C
code reaches this value by building the double `(1 + m/2^10) * 2^(-14)` bitwise and then
subtracting the double constant `2^(-14)`; both operands and the difference are exactly
representable, so the subtraction is exact and the result is this normal double. -/
def halfSubnormalToDouble (m : ℕ) : ℕ :=
  (998 + int_bit_length m) * 2 ^ 52
    + (m - 2 ^ (int_bit_length m - 1)) * 2 ^ (53 - int_bit_length m)

/-- Model of the C cast `(float)d` on bit patterns: IEEE-754 round-to-nearest-even
conversion from binary64 to binary32 (what `mp_obj_get_float_to_f` and the cast in
`cbor_dump_float` perform on standard hardware).  The encoder only evaluates it under
`-126 ≤ exp ≤ 127`, where the target is normal or overflows to infinity; the remaining
branches (NaN payload choice, subnormal targets) are given reasonable IEEE semantics but
are not relied upon by any theorem below. -/
def roundDoubleToSingle (bits : ℕ) : ℕ :=
  let s := bits / 2 ^ 63 % 2
  let e := bits / 2 ^ 52 % 2048
  let m := bits % 2 ^ 52
  if e = 2047 then
    s * 2 ^ 31 + 255 * 2 ^ 23
      + (if m = 0 then 0 else if m / 2 ^ 29 < 2 ^ 22 then m / 2 ^ 29 + 2 ^ 22 else m / 2 ^ 29)
  else if 1151 ≤ e then
    s * 2 ^ 31 + 255 * 2 ^ 23
  else if 897 ≤ e then
    let q := m / 2 ^ 29
    let q2 := q + (if 2 ^ 28 < m % 2 ^ 29 ∨ (m % 2 ^ 29 = 2 ^ 28 ∧ q % 2 = 1) then 1 else 0)
    s * 2 ^ 31 + (e - 896) * 2 ^ 23 + q2
  else
    let fsig := if e = 0 then m else 2 ^ 52 + m
    let sh := if e = 0 then 925 else 926 - e
    let q := fsig / 2 ^ sh
    let q2 := q + (if 2 ^ sh < 2 * (fsig % 2 ^ sh) ∨ (2 * (fsig % 2 ^ sh) = 2 ^ sh ∧ q % 2 = 1) then 1 else 0)
    s * 2 ^ 31 + q2

/-- Model of the C cast `(double)f` on bit patterns: exact IEEE-754 binary32 → binary64
promotion (normals shift exponent bias, subnormals normalize, infinities and NaNs map to
the corresponding binary64 patterns with payload preserved). -/
def singleToDouble (b32 : ℕ) : ℕ :=
  let s := b32 / 2 ^ 31 % 2
  let e := b32 / 2 ^ 23 % 256
  let m := b32 % 2 ^ 23
  if e = 255 then s * 2 ^ 63 + 2047 * 2 ^ 52 + m * 2 ^ 29
  else if e = 0 then
    if m = 0 then s * 2 ^ 63
    else
      s * 2 ^ 63 + (873 + int_bit_length m) * 2 ^ 52
        + (m - 2 ^ (int_bit_length m - 1)) * 2 ^ (53 - int_bit_length m)
  else s * 2 ^ 63 + (e + 896) * 2 ^ 52 + m * 2 ^ 29

/-- Encoder `cbor_dump_double_big`: appends `0xfb` and the 8 IEEE bytes.  As in
`cbor_dump_int_with_major_type`, the payload is written at absolute offset 1 of the
shared buffer (`byte *p = data_vstr->buf + 1`), high 32-bit word first then low word
(little-endian host), while `vstr_add_len` grew the buffer at its end. -/
def cbor_dump_double_big (bits : ℕ) (v : List ℕ) : List ℕ :=
  writeAt (v ++ [0xfb] ++ List.replicate 8 0) 1 (bytesBE 4 (bits / 2 ^ 32) ++ bytesBE 4 (bits % 2 ^ 32))

/-- Encoder `cbor_dump_float_big`: appends `0xfa` and the 4 bytes of the single obtained
by casting the double down (`mp_obj_get_float_to_f`).  Same absolute-offset-1 write. -/
def cbor_dump_float_big (bits : ℕ) (v : List ℕ) : List ℕ :=
  writeAt (v ++ [0xfa] ++ List.replicate 4 0) 1 (bytesBE 4 (roundDoubleToSingle bits))

/-- Encoder `cbor_dump_float`, operating on the 64-bit pattern of the double.

Branches, in source order: the zero branch fires whenever the biased exponent field is
zero (`exp == -1023`), i.e. for signed zero **and for every subnormal double**, and emits
a half-precision signed zero with `vstr_add_byte` (no offset-1 write); the half branch
requires the unbiased exponent in `[-14, 15]` and the low 42 mantissa bits zero (checked
bytewise: `i8[0..4] == 0 && (i8[5] & 3) == 0`); the single branch requires the exponent
in `[-126, 127]` and the double→float→double casts to reproduce the pattern; NaN and
infinity (`exp == 1024`) become fixed half patterns; everything else takes the full
double path.  The half branch writes its 2 payload bytes at absolute offset 1. -/
def cbor_dump_float (bits : ℕ) (v : List ℕ) : List ℕ :=
  let u16 := i8 bits 7 * 256 + i8 bits 6
  let exp : ℤ := (u16 / 16 % 2048 : ℕ) - 1023
  if exp = -1023 then
    v ++ [0xf9, i8 bits 7 / 128 * 0x80, 0x00]
  else if (-14 ≤ exp ∧ exp ≤ 15)
      ∧ (i8 bits 0 = 0 ∧ i8 bits 1 = 0 ∧ i8 bits 2 = 0 ∧ i8 bits 3 = 0 ∧ i8 bits 4 = 0
          ∧ i8 bits 5 % 4 = 0) then
    let t := i8 bits 7 / 128 * 0x8000 + (exp + 15).toNat * 1024 + i8 bits 6 % 16 * 64 + i8 bits 5 / 4
    writeAt (v ++ [0xf9] ++ List.replicate 2 0) 1 (bytesBE 2 t)
  else if (-126 ≤ exp ∧ exp ≤ 127) ∧ singleToDouble (roundDoubleToSingle bits) = bits then
    cbor_dump_float_big bits v
  else if exp = 1024 then
    if bits % 2 ^ 52 ≠ 0 then v ++ [0xf9, 0x7e, 0x00]
    else v ++ [0xf9, if i8 bits 7 / 128 = 1 then 0xfc else 0x7c, 0x00]
  else
    cbor_dump_double_big bits v

/-- Lexicographic byte-string comparison (`bytes` comparison in the host), as a Bool:
shorter prefix compares below. -/
def bytesLe : List ℕ → List ℕ → Bool
  | [], _ => true
  | _ :: _, [] => false
  | a :: as, b :: bs => if a < b then true else if b < a then false else bytesLe as bs

/-- Comparison of two already-encoded keys by the sort key that `cbor_sort_key` builds:
the tuple `(first byte of the encoded key, its length, the full encoded key bytes)`,
compared lexicographically componentwise (host tuple comparison). -/
def keyLeB (x y : List ℕ) : Bool :=
  if x.headD 0 < y.headD 0 then true
  else if y.headD 0 < x.headD 0 then false
  else if x.length < y.length then true
  else if y.length < x.length then false
  else bytesLe x y

/-- Ordering relation on encoded `(key bytes, value bytes)` pairs used for the canonical
map ordering: compare the `cbor_sort_key` tuples of the encoded keys. -/
abbrev sortKeyRel (a b : List ℕ × List ℕ) : Prop := keyLeB a.1 b.1 = true

mutual

/-- Encoder dispatch `cbor_dumps`, appending the encoding of one host value to the
shared buffer `v` (the `data_vstr`).  The C function selects the per-type dump function
through `dump_functions_map`; the match below has one arm per table row, in table order,
and list/tuple (resp. bytes/bytearray/memoryview) rows carry the same function.
`c` is the compile-time flag MICROPY_PY_UCBOR_CANONICAL.

In canonical mode a dict is encoded by dumping every key and value into a fresh buffer
(`cbor_dumps(obj, NULL)` starts from an empty `vstr`), sorting the encoded pairs with
the stable host `list.sort` keyed by `cbor_sort_key` — modelled from the spec by
`List.insertionSort`, a stable sort — and appending the sorted raw byte pairs. -/
def cbor_dumps (c : Bool) : HostValue → List ℕ → List ℕ
  | .int n, v => cbor_dump_int_with_major_type 0 n v
  | .float bits, v => cbor_dump_float bits v
  | .bool b, v => v ++ [if b then 0xf5 else 0xf4]
  | .noneV, v => v ++ [0xf6]
  | .str bs, v => cbor_dump_int_with_major_type 3 bs.length v ++ bs
  | .bytes bs, v => cbor_dump_int_with_major_type 2 bs.length v ++ bs
  | .bytearray bs, v => cbor_dump_int_with_major_type 2 bs.length v ++ bs
  | .memoryview bs, v => cbor_dump_int_with_major_type 2 bs.length v ++ bs
  | .list xs, v => cbor_dumps_seq c xs (cbor_dump_int_with_major_type 4 xs.length v)
  | .tuple xs, v => cbor_dumps_seq c xs (cbor_dump_int_with_major_type 4 xs.length v)
  | .dict ps, v =>
    let v1 := cbor_dump_int_with_major_type 5 ps.length v
    if c then
      (List.insertionSort sortKeyRel (cbor_pairs_encoded c ps)).foldl
        (fun acc pr => acc ++ pr.1 ++ pr.2) v1
    else
      cbor_dumps_pairs c ps v1

/-- Encoder loop over list/tuple elements (`for i < array_len: cbor_dumps(items[i], vstr)`). -/
def cbor_dumps_seq (c : Bool) : HostValueList → List ℕ → List ℕ
  | .nil, v => v
  | .cons x xs, v => cbor_dumps_seq c xs (cbor_dumps c x v)

/-- Encoder loop over dict pairs in sequence order (the non-canonical branch of
`cbor_dump_dict`). -/
def cbor_dumps_pairs (c : Bool) : HostValuePairs → List ℕ → List ℕ
  | .nil, v => v
  | .cons k val ps, v => cbor_dumps_pairs c ps (cbor_dumps c val (cbor_dumps c k v))

/-- The list of `(encoded key, encoded value)` byte pairs the canonical branch of
`cbor_dump_dict` builds before sorting — each element dumped into a fresh buffer. -/
def cbor_pairs_encoded (c : Bool) : HostValuePairs → List (List ℕ × List ℕ)
  | .nil => []
  | .cons k val ps => (cbor_dumps c k [], cbor_dumps c val []) :: cbor_pairs_encoded c ps

end

/-- Top-level `encode` entry point (`cbor_encode`): dump into a fresh buffer, with the
canonical compile-time flag off. -/
def cbor_encode (x : HostValue) : List ℕ := cbor_dumps false x []

/-- Top-level `encode` entry point of a build with MICROPY_PY_UCBOR_CANONICAL defined. -/
def cbor_encode_canonical (x : HostValue) : List ℕ := cbor_dumps true x []

mutual

/-- Structural value equality used by `mp_obj_dict_store` in the decoder when rebuilding a
map.  (The host function `mp_obj_equal` additionally identifies numerically equal values of
different types, e.g. `True == 1`; no theorem below decodes a map whose keys differ only
that way, so the structural model agrees with the host on everything exercised.) -/
def hveq : HostValue → HostValue → Bool
  | .int a, .int b => a == b
  | .float a, .float b => a == b
  | .bool a, .bool b => a == b
  | .noneV, .noneV => true
  | .str a, .str b => a == b
  | .bytes a, .bytes b => a == b
  | .bytearray a, .bytearray b => a == b
  | .memoryview a, .memoryview b => a == b
  | .list a, .list b => hveqSeq a b
  | .tuple a, .tuple b => hveqSeq a b
  | .dict a, .dict b => hveqPairs a b
  | _, _ => false

/-- Elementwise equality of value sequences. -/
def hveqSeq : HostValueList → HostValueList → Bool
  | .nil, .nil => true
  | .cons a as, .cons b bs => hveq a b && hveqSeq as bs
  | _, _ => false

/-- Pairwise equality of pair sequences. -/
def hveqPairs : HostValuePairs → HostValuePairs → Bool
  | .nil, .nil => true
  | .cons ka va as, .cons kb vb bs => hveq ka kb && hveq va vb && hveqPairs as bs
  | _, _ => false

end

/-- Store semantics of `mp_obj_dict_store`: if an equal key is present, replace that
value of that entry in place (the stored key object is kept); otherwise append the new pair. -/
def dictStore : HostValuePairs → HostValue → HostValue → HostValuePairs
  | .nil, k, v => .cons k v .nil
  | .cons k0 v0 ps, k, v =>
    if hveq k0 k then .cons k0 v ps else .cons k0 v0 (dictStore ps k v)

/-- Decoder `cbor_load_int`: an additional-information value below 24 is the value
itself; 24–27 read `2^(ai-24)` big-endian bytes — with **no bounds check** in the source
(`mp_obj_int_from_bytes_impl` reads `n_bytes` unconditionally), so a short buffer is an
out-of-bounds read; anything else raises `Invalid additional information`. -/
def cbor_load_int (ai : ℕ) (bs : List ℕ) : Except CborErr (ℤ × List ℕ) :=
  if ai < 24 then .ok ((ai : ℤ), bs)
  else if ai ≤ 27 then
    let n := 2 ^ (ai - 24)
    if bs.length < n then .error .outOfBoundsRead
    else .ok ((fromBE (bs.take n) : ℤ), bs.drop n)
  else .error .invalidAddInfo

/-- The `LOAD_INT` macro converts the loaded integer to a machine word with
`mp_obj_get_int`, which raises for values outside the signed 64-bit range. -/
def getMachineInt (n : ℤ) : Except CborErr ℕ :=
  if n < 2 ^ 63 then .ok n.toNat else .error .machineWordOverflow

/-- Decoder `cbor_load_half_float`: checks that two bytes remain (`Buffer to small`
otherwise — the only loaders with such a check are the three float loaders), then
rebuilds a double from the binary16 pattern exactly as the C code assembles
`fp_dp.i8[]`: signed zero for a zero exponent field with zero mantissa, a normalized
double for half subnormals, signed infinity, the fixed quiet NaN `0x7ff8…` with sign
kept and payload discarded, and the exponent-rebias for normals. -/
def cbor_load_half_float (bs : List ℕ) : Except CborErr (HostValue × List ℕ) :=
  match bs with
  | b0 :: b1 :: rest =>
    let b0c := b0 % 256
    let b1c := b1 % 256
    let u16 := b0c * 256 + b1c
    let expf := u16 / 1024 % 32
    if expf = 0 then
      if u16 % 1024 = 0 then
        .ok (.float (b0c / 128 * 128 * 2 ^ 56), rest)
      else
        .ok (.float (b0c / 128 * 2 ^ 63 + halfSubnormalToDouble (u16 % 1024)), rest)
    else if expf = 31 then
      if u16 % 1024 = 0 then
        .ok (.float ((b0c / 128 * 128 + 0x7f) * 2 ^ 56 + 0xf0 * 2 ^ 48), rest)
      else
        .ok (.float ((b0c / 128 * 128 + 0x7f) * 2 ^ 56 + 0xf8 * 2 ^ 48), rest)
    else
      let tmp := b0c / 128 * 0x80000000 + (expf + 1008) * 2 ^ 20 + b0c % 4 * 2 ^ 18 + b1c * 2 ^ 10
      .ok (.float (tmp * 2 ^ 32), rest)
  | _ => .error .bufferTooSmall

/-- Decoder `cbor_load_float`: four big-endian bytes as a binary32 pattern, returned as
the promoted double (`mp_obj_new_float` widens the C `float` to the host float). -/
def cbor_load_float (bs : List ℕ) : Except CborErr (HostValue × List ℕ) :=
  if bs.length < 4 then .error .bufferTooSmall
  else .ok (.float (singleToDouble (fromBE (bs.take 4))), bs.drop 4)

/-- Decoder `cbor_load_double`: eight big-endian bytes as the binary64 pattern. -/
def cbor_load_double (bs : List ℕ) : Except CborErr (HostValue × List ℕ) :=
  if bs.length < 8 then .error .bufferTooSmall
  else .ok (.float (fromBE (bs.take 8)), bs.drop 8)

/-- Decoder `cbor_load_special` (major type 7): booleans, null (simple values 22 and 23),
and the three float widths; everything else raises `Unsupported additional information`. -/
def cbor_load_special (ai : ℕ) (bs : List ℕ) : Except CborErr (HostValue × List ℕ) :=
  if ai = 20 then .ok (.bool false, bs)
  else if ai = 21 then .ok (.bool true, bs)
  else if ai = 22 ∨ ai = 23 then .ok (.noneV, bs)
  else if ai = 25 then cbor_load_half_float bs
  else if ai = 26 then cbor_load_float bs
  else if ai = 27 then cbor_load_double bs
  else .error .unsupportedAddInfo

/-- Decoder loop of `cbor_load_list`: decode `cnt` items in order with the given
one-item loader, building the element sequence. -/
def loadManyWith (ld : List ℕ → Except CborErr (HostValue × List ℕ)) :
    ℕ → List ℕ → Except CborErr (HostValueList × List ℕ)
  | 0, bs => .ok (.nil, bs)
  | cnt + 1, bs =>
    match ld bs with
    | .error e => .error e
    | .ok (x, r) =>
      match loadManyWith ld cnt r with
      | .error e => .error e
      | .ok (xs, r2) => .ok (.cons x xs, r2)

/-- Decoder loop of `cbor_load_dict`: decode `cnt` key/value pairs in order, storing each
into the accumulated dict with `mp_obj_dict_store` semantics. -/
def loadPairsWith (ld : List ℕ → Except CborErr (HostValue × List ℕ)) :
    ℕ → HostValuePairs → List ℕ → Except CborErr (HostValuePairs × List ℕ)
  | 0, acc, bs => .ok (acc, bs)
  | cnt + 1, acc, bs =>
    match ld bs with
    | .error e => .error e
    | .ok (k, r) =>
      match ld r with
      | .error e => .error e
      | .ok (vl, r2) => loadPairsWith ld cnt (dictStore acc k vl) r2

/-- One step of `cbor_loads` after the header byte has been read: split into major type
and additional information, dispatch through `load_functions_map`.  The recursive
occurrences of `cbor_loads` (inside lists and dicts) are abstracted as `ld`.

The byte-string and text-string loaders call `mp_obj_new_bytes(buf, n)` /
`mp_obj_new_str(buf, n)` with **no bounds check**, so a buffer shorter than the declared
length is an out-of-bounds read, not an error raise. -/
def cbor_loads_body (ld : List ℕ → Except CborErr (HostValue × List ℕ)) (fb : ℕ)
    (bs : List ℕ) : Except CborErr (HostValue × List ℕ) :=
  let mt := fb / 32
  let ai := fb % 32
  if mt = 0 then
    match cbor_load_int ai bs with
    | .error e => .error e
    | .ok (n, r) => .ok (.int n, r)
  else if mt = 1 then
    match cbor_load_int ai bs with
    | .error e => .error e
    | .ok (n, r) => .ok (.int (-1 - n), r)
  else if mt = 2 then
    match cbor_load_int ai bs with
    | .error e => .error e
    | .ok (n, r) =>
      match getMachineInt n with
      | .error e => .error e
      | .ok len =>
        if r.length < len then .error .outOfBoundsRead
        else .ok (.bytes (r.take len), r.drop len)
  else if mt = 3 then
    match cbor_load_int ai bs with
    | .error e => .error e
    | .ok (n, r) =>
      match getMachineInt n with
      | .error e => .error e
      | .ok len =>
        if r.length < len then .error .outOfBoundsRead
        else .ok (.str (r.take len), r.drop len)
  else if mt = 4 then
    match cbor_load_int ai bs with
    | .error e => .error e
    | .ok (n, r) =>
      match getMachineInt n with
      | .error e => .error e
      | .ok cnt =>
        match loadManyWith ld cnt r with
        | .error e => .error e
        | .ok (xs, r2) => .ok (.list xs, r2)
  else if mt = 5 then
    match cbor_load_int ai bs with
    | .error e => .error e
    | .ok (n, r) =>
      match getMachineInt n with
      | .error e => .error e
      | .ok cnt =>
        match loadPairsWith ld cnt .nil r with
        | .error e => .error e
        | .ok (ps, r2) => .ok (.dict ps, r2)
  else if mt = 6 then .error .unsupportedMajor
  else if mt = 7 then cbor_load_special ai bs
  else .error .unsupportedMajor

/-- Fuel-indexed `cbor_loads`: read the header byte (an out-of-bounds read on an empty
buffer — the source reads `data_vstr->buf[0]` unconditionally), then dispatch.  The fuel
bounds the nesting depth; the top-level entry point supplies more fuel than any buffer
can nest. -/
def cbor_loads_fuel : ℕ → List ℕ → Except CborErr (HostValue × List ℕ)
  | 0, _ => .error .fuelExhausted
  | _ + 1, [] => .error .outOfBoundsRead
  | f + 1, fb :: bs => cbor_loads_body (cbor_loads_fuel f) fb bs

/-- Decoder `cbor_loads`: decode one item from the front of the buffer, returning the
value and the remaining bytes. -/
def cbor_loads (bs : List ℕ) : Except CborErr (HostValue × List ℕ) :=
  cbor_loads_fuel (bs.length + 1) bs

/-- Top-level `decode` entry point (`cbor_decode`): decode one item and discard whatever
bytes remain. -/
def cbor_decode (bs : List ℕ) : Except CborErr HostValue :=
  match cbor_loads bs with
  | .error e => .error e
  | .ok (v, _) => .ok v

/-- Major type bits of the first byte of an encoding (high three bits). -/
def firstByteMT (l : List ℕ) : ℕ := l.headD 0 / 32

/-- Additional-information bits of the first byte of an encoding (low five bits). -/
def aiOf (l : List ℕ) : ℕ := l.headD 0 % 32

/-- The unsigned value carried by the header of an integer item: the inline value for
`ai < 24`, otherwise the big-endian value of the extension bytes that follow. -/
def headerValue (l : List ℕ) : ℕ :=
  if aiOf l < 24 then aiOf l else fromBE l.tail

/-- Formalization of the claimed minimal header widths: the number of extension bytes the
smallest form representing `d` uses (0 = inline). -/
def minExtLenSpec (d : ℕ) : ℕ :=
  if d ≤ 23 then 0
  else if d ≤ 0xff then 1
  else if d ≤ 0xffff then 2
  else if d ≤ 0xffffffff then 4
  else 8

/-- Formalization of the claimed minimal additional-information code for `d`. -/
def minAISpec (d : ℕ) : ℕ :=
  if d ≤ 23 then d
  else if d ≤ 0xff then 24
  else if d ≤ 0xffff then 25
  else if d ≤ 0xffffffff then 26
  else 27

/-- The unsigned data value an integer `n` is encoded through: `n` itself when
non-negative, `-1 - n` when negative (the CBOR major-type-1 transformation). -/
def encDataOf (n : ℤ) : ℕ := (if n < 0 then -1 - n else n).toNat

/-- Modelled from the spec: IEEE-754 binary16 → binary64 promotion, with the NaN case as
the code actually behaves — every NaN maps to the fixed quiet NaN pattern with the sign
kept and the payload discarded (this is the amended part; the spec asks for the payload
to be preserved). -/
def promoteHalfSpec (u : ℕ) : ℕ :=
  let s := u / 2 ^ 15 % 2
  let ef := u / 1024 % 32
  let m := u % 1024
  if ef = 0 then
    if m = 0 then s * 2 ^ 63 else s * 2 ^ 63 + halfSubnormalToDouble m
  else if ef = 31 then
    if m = 0 then s * 2 ^ 63 + 2047 * 2 ^ 52
    else s * 2 ^ 63 + 2047 * 2 ^ 52 + 2 ^ 51
  else
    s * 2 ^ 63 + (ef + 1008) * 2 ^ 52 + m * 2 ^ 42

/-! Section: Basic facts about the byte-level helpers -/

theorem length_bytesBE : ∀ k d, (bytesBE k d).length = k := by
  intro k
  induction k with
  | zero => intro d; rfl
  | succ k ih => intro d; simp [bytesBE, ih]

theorem fromBE_bytesBE : ∀ k d, fromBE (bytesBE k d) = d % 2 ^ (8 * k) := by
  intro k
  induction k with
  | zero => intro d; simp [bytesBE, fromBE]; omega
  | succ k ih =>
    intro d
    have hpow : (2 : ℕ) ^ (8 * (k + 1)) = 2 ^ (8 * k) * 2 ^ 8 := by
      rw [← pow_add]; ring_nf
    rw [bytesBE, fromBE, length_bytesBE, ih, hpow, Nat.mod_mul]
    ring_nf

theorem fromBE_bytesBE_of_lt {k d : ℕ} (h : d < 2 ^ (8 * k)) : fromBE (bytesBE k d) = d := by
  rw [fromBE_bytesBE, Nat.mod_eq_of_lt h]

theorem writeAt_head (a : ℕ) (l p : List ℕ) :
    writeAt (a :: l) 1 p = a :: (p ++ l.drop p.length) := by
  simp [writeAt]
  rw [Nat.add_comm]
  exact List.drop_succ_cons

theorem writeAt_head_full (a : ℕ) (l p : List ℕ) (h : l.length ≤ p.length) :
    writeAt (a :: l) 1 p = a :: p := by
  rw [writeAt_head, List.drop_eq_nil_of_le h, List.append_nil]

/-! Section: Bit length -/

theorem bitLenAux_zero : ∀ f, bitLenAux f 0 = 0 := by
  intro f; cases f <;> simp [bitLenAux]

theorem bitLenAux_spec : ∀ f n, n < 2 ^ f →
    n < 2 ^ bitLenAux f n ∧ (1 ≤ n → 2 ^ (bitLenAux f n - 1) ≤ n) := by
  intro f
  induction f with
  | zero =>
    intro n h
    have : n = 0 := by simpa using h
    subst this
    exact ⟨by simp [bitLenAux_zero], by omega⟩
  | succ f ih =>
    intro n h
    by_cases h0 : n = 0
    · subst h0
      exact ⟨by simp [bitLenAux_zero], by omega⟩
    · have hstep : bitLenAux (f + 1) n = bitLenAux f (n / 2) + 1 := by
        rw [bitLenAux, if_neg h0]
      have hdiv : n / 2 < 2 ^ f := by
        have h2 : (2 : ℕ) ^ (f + 1) = 2 ^ f * 2 := by rw [pow_succ]
        omega
      obtain ⟨ih1, ih2⟩ := ih (n / 2) hdiv
      constructor
      · rw [hstep, pow_succ]; omega
      · intro _
        rw [hstep]
        by_cases hh : n / 2 = 0
        · rw [hh, bitLenAux_zero]; omega
        · have := ih2 (by omega)
          have hb : 1 ≤ bitLenAux f (n / 2) := by
            by_contra hc
            have : bitLenAux f (n / 2) = 0 := by omega
            rw [this] at ih1
            omega
          have hp : (2 : ℕ) ^ (bitLenAux f (n / 2) + 1 - 1)
              = 2 ^ (bitLenAux f (n / 2) - 1) * 2 := by
            rw [← pow_succ]
            congr 1
            omega
          rw [hp]
          omega

theorem int_bit_length_lt (n : ℕ) : n < 2 ^ int_bit_length n :=
  (bitLenAux_spec n n (Nat.lt_two_pow n)).1

theorem int_bit_length_le_self (n : ℕ) (h : 1 ≤ n) : 2 ^ (int_bit_length n - 1) ≤ n :=
  (bitLenAux_spec n n (Nat.lt_two_pow n)).2 h

theorem int_bit_length_le_of_lt {n k : ℕ} (h : n < 2 ^ k) : int_bit_length n ≤ k := by
  by_contra hc
  have h1 : 1 ≤ n := by
    by_contra h0
    have : n = 0 := by omega
    subst this
    simp [int_bit_length, bitLenAux_zero] at hc
  have h2 : k ≤ int_bit_length n - 1 := by omega
  have := int_bit_length_le_self n h1
  have := Nat.pow_le_pow_right (by omega : 1 ≤ 2) h2
  omega

theorem le_int_bit_length {n k : ℕ} (h : 2 ^ k ≤ n) : k + 1 ≤ int_bit_length n := by
  by_contra hc
  have h2 : int_bit_length n ≤ k := by omega
  have := int_bit_length_lt n
  have := Nat.pow_le_pow_right (by omega : 1 ≤ 2) h2
  omega

/-! Section: Clean forms of the top-level integer encoder -/

theorem dump_int_with_mt_small (mt : ℕ) (n : ℤ) (hs : isSmall n = true) :
    cbor_dump_int_with_major_type mt n [] =
      ((if n < 0 then 1 else mt) * 32 + minAISpec (encDataOf n))
        :: (if encDataOf n ≤ 23 then []
            else bytesBE (minExtLenSpec (encDataOf n)) (encDataOf n)) := by
  rw [cbor_dump_int_with_major_type, if_pos hs]
  show (if (if n < 0 then -1 - n else n).toNat ≤ 23 then _ else _) = _
  have hdata : (if n < 0 then -1 - n else n).toNat = encDataOf n := rfl
  rw [hdata]
  by_cases h23 : encDataOf n ≤ 23
  · rw [if_pos h23, if_pos h23]
    simp [minAISpec, h23]
  · rw [if_neg h23, if_neg h23]
    by_cases h255 : encDataOf n ≤ 0xff
    · rw [if_pos h255]
      simp [minAISpec, minExtLenSpec, h23, h255, bytesBE, fromBE]
      omega
    · rw [if_neg h255]
      by_cases h2 : encDataOf n ≤ 0xffff
      · rw [if_pos h2]
        rw [show ([] : List ℕ) ++ [(if n < 0 then 1 else mt) * 32 + 25] ++ List.replicate 2 0
              = ((if n < 0 then 1 else mt) * 32 + 25) :: List.replicate 2 0 from rfl]
        rw [writeAt_head_full _ _ _ (by simp [length_bytesBE])]
        simp [minAISpec, minExtLenSpec, h23, h255, h2]
      · rw [if_neg h2]
        by_cases h4 : encDataOf n ≤ 0xffffffff
        · rw [if_pos h4]
          rw [show ([] : List ℕ) ++ [(if n < 0 then 1 else mt) * 32 + 26] ++ List.replicate 4 0
                = ((if n < 0 then 1 else mt) * 32 + 26) :: List.replicate 4 0 from rfl]
          rw [writeAt_head_full _ _ _ (by simp [length_bytesBE])]
          simp [minAISpec, minExtLenSpec, h23, h255, h2, h4]
        · rw [if_neg h4]
          rw [show ([] : List ℕ) ++ [(if n < 0 then 1 else mt) * 32 + 27] ++ List.replicate 8 0
                = ((if n < 0 then 1 else mt) * 32 + 27) :: List.replicate 8 0 from rfl]
          rw [writeAt_head_full _ _ _ (by simp [length_bytesBE])]
          simp [minAISpec, minExtLenSpec, h23, h255, h2, h4]

theorem dump_int_with_mt_big (mt : ℕ) (n : ℤ) (hs : isSmall n = false) :
    cbor_dump_int_with_major_type mt n [] =
      (mt ||| 27) :: bytesBE ((int_bit_length n.natAbs + 7) / 8)
        ((n % (2 ^ (8 * ((int_bit_length n.natAbs + 7) / 8)) : ℤ)).toNat) := by
  simp only [cbor_dump_int_with_major_type, hs, Bool.false_eq_true, if_false,
    List.nil_append, List.singleton_append, List.length_cons, List.length_replicate,
    Nat.add_sub_cancel]
  rw [writeAt_head_full _ _ _ (by simp [length_bytesBE])]

/-! Section: Claim C1 -/

/-- Claim C1 (refuted; evaluation of the code at the failing input): the round-trip law
fails for the nested container `[256]` that the claim itself gives as an example.  The
encoder emits the 2-byte integer payload of the element at absolute offset 1 of the shared
buffer — over the own header byte of the element — instead of at the end where `vstr_add_len`
made room (whose fresh byte, uninitialized in C, is modelled as `0`).  The resulting
buffer `81 01 00 ..` decodes to the list `[1]`, not `[256]`. -/
theorem c1_nested_multibyte_clobbered :
    cbor_encode (.list (.cons (.int 256) .nil)) = [0x81, 0x01, 0x00, 0x00]
    ∧ cbor_decode (cbor_encode (.list (.cons (.int 256) .nil)))
        = .ok (.list (.cons (.int 1) .nil))
    ∧ (HostValue.list (.cons (.int 1) .nil)) ≠ .list (.cons (.int 256) .nil) := by
  refine ⟨rfl, rfl, ?_⟩
  simp

/-! Section: Claim C2 -/

/-- Claim C2 (refuted; evaluation of the code at the failing input): a buffer declaring
a 10-byte text string but holding only 3 content bytes does not fail with the
malformed-input error (`Buffer to small`, raised only by the float loaders): the string
loader has no bounds check and reads past the end of the buffer (undefined behavior,
modelled as the distinguished outcome `outOfBoundsRead`). -/
theorem c2_truncated_string_reads_out_of_bounds :
    cbor_loads [0x6a, 0x61, 0x62, 0x63] = .error .outOfBoundsRead
    ∧ CborErr.outOfBoundsRead ≠ CborErr.bufferTooSmall := by
  exact ⟨rfl, by decide⟩

/-! Section: Claim C3 -/

/-- Claim C3 (refuted; evaluation of the code at the failing input): the smallest
positive subnormal double (bit pattern `0x0000000000000001`) is caught by the encoder branch
`exp == -1023` — whose own comment says it is meant for `±0.0` only — and is
encoded as the half-precision `+0.0` item `f9 00 00`, which decodes to `+0.0`
(pattern `0`).  So half-precision is used although the unbiased exponent is not in
`[-14, 15]` and the double is not a signed zero, and decode∘encode does not reproduce
the double bit-for-bit. -/
theorem c3_subnormal_flushed_to_zero :
    cbor_encode (.float 1) = [0xf9, 0x00, 0x00]
    ∧ cbor_decode [0xf9, 0x00, 0x00] = .ok (.float 0)
    ∧ (0 : ℕ) ≠ 1 := by
  exact ⟨rfl, rfl, by decide⟩

/-! Section: Claim C4 -/

/-- Claim C4 (counterexample): canonical encoding is not invariant under permutation of
the pairs of a map.  The distinct keys `2^63` and `-(2^63)` have identical encoded key bytes
(`1b 80 00 00 00 00 00 00 00`, because the big-integer path ignores the sign and emits
the twos-complement image), so the sort key cannot separate them and the two orderings
of the same pairs produce different canonical encodings. -/
theorem c4_permutation_counterexample :
    cbor_encode_canonical
        (.dict (.cons (.int (2 ^ 63)) (.int 0) (.cons (.int (-(2 ^ 63))) (.int 1) .nil)))
      ≠ cbor_encode_canonical
        (.dict (.cons (.int (-(2 ^ 63))) (.int 1) (.cons (.int (2 ^ 63)) (.int 0) .nil))) := by
  decide

/-! Section: Claim C6 -/

/-- Claim C6 (counterexample): for the negative integer `-(2^63)` — not a small integer
on a 64-bit port — the encoder does not select major type 1: the non-small branch leaves
`mt = 0` unshifted, so the first byte is `0x1b` (major type 0). -/
theorem c6_negative_big_int_wrong_major_type :
    ¬ firstByteMT (cbor_encode (.int (-(2 ^ 63)))) = 1 := by
  decide

/-! Section: Claim C7 -/

/-- Claim C7 (counterexample): half-precision NaN decoding does not preserve the NaN
payload.  The two distinct payloads `0x001` and `0x002` (half patterns `7c01`, `7c02`)
decode to the same fixed quiet NaN `0x7ff8000000000000`, whose mantissa keeps none of
the payload bits — under any quiet-bit convention a payload-preserving promotion would
map them to distinct doubles. -/
theorem c7_nan_payload_not_preserved :
    cbor_loads [0xf9, 0x7c, 0x01] = .ok (.float 0x7ff8000000000000, [])
    ∧ cbor_loads [0xf9, 0x7c, 0x02] = .ok (.float 0x7ff8000000000000, [])
    ∧ (0x001 : ℕ) ≠ 0x002 := by
  exact ⟨rfl, rfl, by decide⟩

/-! Section: Header facts shared by the integer-width and major-type claims -/

theorem minAISpec_lt (d : ℕ) : minAISpec d < 32 := by
  unfold minAISpec
  split_ifs <;> omega

theorem firstByteMT_dump_int_small (mt : ℕ) (n : ℤ) (hs : isSmall n = true) :
    firstByteMT (cbor_dump_int_with_major_type mt n []) = if n < 0 then 1 else mt := by
  rw [dump_int_with_mt_small mt n hs]
  have := minAISpec_lt (encDataOf n)
  simp only [firstByteMT, List.headD_cons]
  omega

theorem aiOf_dump_int_small (mt : ℕ) (n : ℤ) (hs : isSmall n = true) :
    aiOf (cbor_dump_int_with_major_type mt n []) = minAISpec (encDataOf n) := by
  rw [dump_int_with_mt_small mt n hs]
  have := minAISpec_lt (encDataOf n)
  simp only [aiOf, List.headD_cons]
  omega

theorem encDataOf_cast (n : ℤ) : (encDataOf n : ℤ) = if n < 0 then -1 - n else n := by
  unfold encDataOf
  split_ifs with h
  · rw [Int.toNat_of_nonneg (by omega)]
  · rw [Int.toNat_of_nonneg (by omega)]

theorem headerValue_dump_int_small (mt : ℕ) (n : ℤ) (hs : isSmall n = true) :
    (headerValue (cbor_dump_int_with_major_type mt n []) : ℤ)
      = if n < 0 then -1 - n else n := by
  rw [← encDataOf_cast n]
  congr 1
  rw [headerValue, aiOf_dump_int_small mt n hs, dump_int_with_mt_small mt n hs]
  by_cases h23 : encDataOf n ≤ 23
  · rw [if_pos (by unfold minAISpec; rw [if_pos h23]; omega)]
    unfold minAISpec
    rw [if_pos h23]
  · have hlt : encDataOf n < 2 ^ 62 := by
      have hs2 := hs
      unfold isSmall at hs2
      simp only [Bool.and_eq_true, decide_eq_true_eq] at hs2
      unfold encDataOf
      split_ifs <;> omega
    rw [if_neg (by unfold minAISpec; split_ifs <;> omega)]
    rw [if_neg h23]
    simp only [List.tail_cons]
    unfold minExtLenSpec
    split_ifs with ha hb hc
    · exact fromBE_bytesBE_of_lt (by omega)
    · exact fromBE_bytesBE_of_lt (by omega)
    · exact fromBE_bytesBE_of_lt (by omega)
    · exact fromBE_bytesBE_of_lt (by omega)

theorem length_dump_int_small (mt : ℕ) (n : ℤ) (hs : isSmall n = true) :
    (cbor_dump_int_with_major_type mt n []).length = 1 + minExtLenSpec (encDataOf n) := by
  rw [dump_int_with_mt_small mt n hs]
  by_cases h23 : encDataOf n ≤ 23
  · simp [h23, minExtLenSpec]
  · simp only [List.length_cons, if_neg h23, length_bytesBE]
    omega

theorem big_bounds (n : ℤ) (hs : isSmall n = false) :
    2 ^ 62 ≤ n.natAbs ∧ 2 ^ 62 ≤ encDataOf n := by
  have hnot : ¬(-(2 ^ 62) ≤ n ∧ n < 2 ^ 62) := by
    intro hand
    rw [isSmall, decide_eq_true hand.1, decide_eq_true hand.2] at hs
    exact Bool.noConfusion hs
  unfold encDataOf
  split_ifs <;> omega

theorem big_size_eight (n : ℤ) (hs : isSmall n = false) (h : n.natAbs < 2 ^ 64) :
    (int_bit_length n.natAbs + 7) / 8 = 8 := by
  have h62 := (big_bounds n hs).1
  have h63 : 63 ≤ int_bit_length n.natAbs := le_int_bit_length h62
  have h64 : int_bit_length n.natAbs ≤ 64 := int_bit_length_le_of_lt h
  omega

/-! Section: Claim C5 -/

/-- Claim C5: for every integer whose magnitude is representable by some header form
(`|n| ≤ 2^64 - 1`), the encoder emits the smallest header form for the encoded data
value (`n` itself, or `-1 - n` for negative `n`): the inline form for values up to 23,
then the 1-, 2-, 4- or 8-byte big-endian extension, never a wider one.  In particular
the total length is `1 + minExtLenSpec` and the additional-information code is the
minimal one. -/
theorem c5_minimal_integer_width (n : ℤ) (h : n.natAbs < 2 ^ 64) :
    (cbor_encode (.int n)).length = 1 + minExtLenSpec (encDataOf n)
    ∧ aiOf (cbor_encode (.int n)) = minAISpec (encDataOf n) := by
  have henc : cbor_encode (.int n) = cbor_dump_int_with_major_type 0 n [] := rfl
  rcases Bool.eq_false_or_eq_true (isSmall n) with hs | hs
  swap
  · have hdata := (big_bounds n hs).2
    rw [henc, dump_int_with_mt_big 0 n hs, big_size_eight n hs h,
      show (0 ||| 27 : ℕ) = 27 from by decide]
    constructor
    · simp only [List.length_cons, length_bytesBE]
      unfold minExtLenSpec
      split_ifs <;> omega
    · simp only [aiOf, List.headD_cons]
      unfold minAISpec
      split_ifs <;> omega
  · rw [henc]
    exact ⟨length_dump_int_small 0 n hs, aiOf_dump_int_small 0 n hs⟩

/-- Witness for C5 at the boundary value `2^32` (which must take the 8-byte form). -/
theorem c5_minimal_integer_width_witness :
    (cbor_encode (.int (2 ^ 32))).length = 1 + minExtLenSpec (encDataOf (2 ^ 32))
    ∧ aiOf (cbor_encode (.int (2 ^ 32))) = minAISpec (encDataOf (2 ^ 32)) :=
  c5_minimal_integer_width (2 ^ 32) (by decide)

/-- Claim C6 (amended): the major-type rule holds for small integers only.  For a small
`n` the encoder selects major type 0 when `n ≥ 0` and major type 1 with encoded data
value `-1 - n` when `n < 0`.  A non-small integer (magnitude at least `2^62` on a 64-bit
port) is encoded with first byte `0x1b` (major type 0, `ai = 27`) regardless of its
sign, followed by the big-endian image of `n mod 2^(8L)` over `L = ceil(bitlen(|n|)/8)`
bytes — the twos-complement image for negative `n`, not the magnitude of `-1 - n`. -/
theorem c6_amended_major_type (n : ℤ) :
    (isSmall n = true →
      firstByteMT (cbor_encode (.int n)) = (if n < 0 then 1 else 0)
      ∧ (headerValue (cbor_encode (.int n)) : ℤ) = (if n < 0 then -1 - n else n))
    ∧ (isSmall n = false →
      cbor_encode (.int n)
        = 27 :: bytesBE ((int_bit_length n.natAbs + 7) / 8)
            ((n % (2 ^ (8 * ((int_bit_length n.natAbs + 7) / 8)) : ℤ)).toNat)) := by
  have henc : cbor_encode (.int n) = cbor_dump_int_with_major_type 0 n [] := rfl
  constructor
  · intro hs
    rw [henc]
    exact ⟨firstByteMT_dump_int_small 0 n hs, headerValue_dump_int_small 0 n hs⟩
  · intro hs
    rw [henc, dump_int_with_mt_big 0 n hs]
    rfl

/-- Witness for C6: the small negative `-5` gets major type 1, and the non-small
`2^63` gets the `0x1b` header followed by its 8 magnitude bytes. -/
theorem c6_amended_major_type_witness :
    firstByteMT (cbor_encode (.int (-5))) = 1
    ∧ cbor_encode (.int (2 ^ 63)) = [27, 128, 0, 0, 0, 0, 0, 0, 0] := by
  constructor
  · have h := ((c6_amended_major_type (-5)).1 (by decide)).1
    simpa using h
  · have h := (c6_amended_major_type (2 ^ 63)).2 (by decide)
    rw [h]
    decide

/-! Section: The encoder only ever appends to or overwrites past the first byte -/

theorem dump_int_cons_head (mt : ℕ) (n : ℤ) (a : ℕ) (v : List ℕ) :
    ∃ w, cbor_dump_int_with_major_type mt n (a :: v) = a :: w := by
  simp only [cbor_dump_int_with_major_type, List.cons_append, writeAt_head]
  split_ifs <;> exact ⟨_, rfl⟩

theorem dump_double_big_cons_head (bits a : ℕ) (v : List ℕ) :
    ∃ w, cbor_dump_double_big bits (a :: v) = a :: w := by
  simp only [cbor_dump_double_big, List.cons_append, writeAt_head]
  exact ⟨_, rfl⟩

theorem dump_float_big_cons_head (bits a : ℕ) (v : List ℕ) :
    ∃ w, cbor_dump_float_big bits (a :: v) = a :: w := by
  simp only [cbor_dump_float_big, List.cons_append, writeAt_head]
  exact ⟨_, rfl⟩

theorem dump_float_cons_head (bits a : ℕ) (v : List ℕ) :
    ∃ w, cbor_dump_float bits (a :: v) = a :: w := by
  simp only [cbor_dump_float, cbor_dump_float_big, cbor_dump_double_big,
    List.cons_append, writeAt_head]
  split_ifs <;> exact ⟨_, rfl⟩

theorem foldl_pairs_cons_head (a : ℕ) :
    ∀ (l : List (List ℕ × List ℕ)) (w : List ℕ),
      ∃ w2, l.foldl (fun acc pr => acc ++ pr.1 ++ pr.2) (a :: w) = a :: w2 := by
  intro l
  induction l with
  | nil => intro w; exact ⟨w, rfl⟩
  | cons p t ih =>
    intro w
    have h1 : (a :: w) ++ p.1 ++ p.2 = a :: (w ++ p.1 ++ p.2) := by simp
    rw [List.foldl_cons, h1]
    exact ih (w ++ p.1 ++ p.2)

mutual

theorem cbor_dumps_cons_head (c : Bool) :
    ∀ (x : HostValue) (a : ℕ) (v : List ℕ), ∃ w, cbor_dumps c x (a :: v) = a :: w
  | .int n, a, v => dump_int_cons_head 0 n a v
  | .float bits, a, v => dump_float_cons_head bits a v
  | .bool b, a, v => ⟨_, rfl⟩
  | .noneV, a, v => ⟨_, rfl⟩
  | .str bs, a, v => by
    obtain ⟨w, hw⟩ := dump_int_cons_head 3 bs.length a v
    exact ⟨w ++ bs, by simp [cbor_dumps, hw]⟩
  | .bytes bs, a, v => by
    obtain ⟨w, hw⟩ := dump_int_cons_head 2 bs.length a v
    exact ⟨w ++ bs, by simp [cbor_dumps, hw]⟩
  | .bytearray bs, a, v => by
    obtain ⟨w, hw⟩ := dump_int_cons_head 2 bs.length a v
    exact ⟨w ++ bs, by simp [cbor_dumps, hw]⟩
  | .memoryview bs, a, v => by
    obtain ⟨w, hw⟩ := dump_int_cons_head 2 bs.length a v
    exact ⟨w ++ bs, by simp [cbor_dumps, hw]⟩
  | .list xs, a, v => by
    obtain ⟨w, hw⟩ := dump_int_cons_head 4 xs.length a v
    obtain ⟨w2, hw2⟩ := cbor_dumps_seq_cons_head c xs a w
    exact ⟨w2, by rw [cbor_dumps, hw, hw2]⟩
  | .tuple xs, a, v => by
    obtain ⟨w, hw⟩ := dump_int_cons_head 4 xs.length a v
    obtain ⟨w2, hw2⟩ := cbor_dumps_seq_cons_head c xs a w
    exact ⟨w2, by rw [cbor_dumps, hw, hw2]⟩
  | .dict ps, a, v => by
    obtain ⟨w, hw⟩ := dump_int_cons_head 5 ps.length a v
    cases c with
    | false =>
      obtain ⟨w2, hw2⟩ := cbor_dumps_pairs_cons_head false ps a w
      exact ⟨w2, by rw [cbor_dumps, hw]; simpa using hw2⟩
    | true =>
      obtain ⟨w2, hw2⟩ :=
        foldl_pairs_cons_head a (List.insertionSort sortKeyRel (cbor_pairs_encoded true ps)) w
      exact ⟨w2, by rw [cbor_dumps, hw]; simpa using hw2⟩

theorem cbor_dumps_seq_cons_head (c : Bool) :
    ∀ (xs : HostValueList) (a : ℕ) (v : List ℕ), ∃ w, cbor_dumps_seq c xs (a :: v) = a :: w
  | .nil, a, v => ⟨v, rfl⟩
  | .cons x xs, a, v => by
    obtain ⟨w, hw⟩ := cbor_dumps_cons_head c x a v
    obtain ⟨w2, hw2⟩ := cbor_dumps_seq_cons_head c xs a w
    exact ⟨w2, by rw [cbor_dumps_seq, hw, hw2]⟩

theorem cbor_dumps_pairs_cons_head (c : Bool) :
    ∀ (ps : HostValuePairs) (a : ℕ) (v : List ℕ), ∃ w, cbor_dumps_pairs c ps (a :: v) = a :: w
  | .nil, a, v => ⟨v, rfl⟩
  | .cons k val ps, a, v => by
    obtain ⟨w, hw⟩ := cbor_dumps_cons_head c k a v
    obtain ⟨w2, hw2⟩ := cbor_dumps_cons_head c val a w
    obtain ⟨w3, hw3⟩ := cbor_dumps_pairs_cons_head c ps a w2
    exact ⟨w3, by rw [cbor_dumps_pairs, hw, hw2, hw3]⟩

end

/-! Section: Claim C10 -/

theorem isSmall_of_nat_lt {k : ℕ} (h : k < 2 ^ 62) : isSmall (k : ℤ) = true := by
  simp only [isSmall, Bool.and_eq_true, decide_eq_true_eq]
  constructor <;> omega

theorem encDataOf_of_nat (k : ℕ) : encDataOf (k : ℤ) = k := by
  unfold encDataOf
  rw [if_neg (by omega)]
  exact Int.toNat_natCast k

/-- Claim C10: the dispatch table maps tuple and list to the same dump function, and
bytes, bytearray and memoryview to the same dump function, so a tuple and a list with
the same elements (resp. byte-alikes with the same contents) encode to identical bytes,
in either canonical mode and whatever the shared buffer already holds; lists are emitted
as a major-type-4 item whose header carries the element count. -/
theorem c10_host_type_coalescing (c : Bool) (xs : HostValueList) (bs v : List ℕ) :
    cbor_dumps c (.tuple xs) v = cbor_dumps c (.list xs) v
    ∧ cbor_dumps c (.bytearray bs) v = cbor_dumps c (.bytes bs) v
    ∧ cbor_dumps c (.memoryview bs) v = cbor_dumps c (.bytes bs) v
    ∧ (xs.length < 2 ^ 62 →
        firstByteMT (cbor_dumps c (.list xs) []) = 4
        ∧ headerValue (cbor_dump_int_with_major_type 4 xs.length []) = xs.length) := by
  refine ⟨rfl, rfl, rfl, ?_⟩
  intro hlen
  have hsmall : isSmall ((xs.length : ℤ)) = true := isSmall_of_nat_lt hlen
  constructor
  · have hhdr := dump_int_with_mt_small 4 (xs.length : ℤ) hsmall
    have hshape : cbor_dumps c (.list xs) []
        = cbor_dumps_seq c xs (cbor_dump_int_with_major_type 4 (xs.length : ℤ) []) := rfl
    rw [hshape, hhdr]
    obtain ⟨w, hw⟩ := cbor_dumps_seq_cons_head c xs
      ((if (xs.length : ℤ) < 0 then 1 else 4) * 32 + minAISpec (encDataOf (xs.length : ℤ)))
      (if encDataOf (xs.length : ℤ) ≤ 23 then []
        else bytesBE (minExtLenSpec (encDataOf (xs.length : ℤ))) (encDataOf (xs.length : ℤ)))
    rw [hw]
    have hminai := minAISpec_lt (encDataOf (xs.length : ℤ))
    simp only [firstByteMT, List.headD_cons]
    rw [if_neg (by omega)]
    omega
  · have h := headerValue_dump_int_small 4 (xs.length : ℤ) hsmall
    rw [if_neg (by omega)] at h
    exact_mod_cast h

/-- Witness for C10 at a one-element sequence and singleton byte string. -/
theorem c10_host_type_coalescing_witness :
    cbor_dumps false (.tuple (.cons (.int 1) .nil)) []
      = cbor_dumps false (.list (.cons (.int 1) .nil)) []
    ∧ firstByteMT (cbor_dumps false (.list (.cons (.int 1) .nil)) []) = 4 := by
  have h := c10_host_type_coalescing false (.cons (.int 1) .nil) [97] []
  exact ⟨h.1, (h.2.2.2 (by decide)).1⟩

/-! Section: Fuel monotonicity of the decoder -/

theorem loadManyWith_mono {ld ld2 : List ℕ → Except CborErr (HostValue × List ℕ)}
    (h : ∀ bs r, ld bs = .ok r → ld2 bs = .ok r) :
    ∀ cnt bs r, loadManyWith ld cnt bs = .ok r → loadManyWith ld2 cnt bs = .ok r := by
  intro cnt
  induction cnt with
  | zero => intro bs r hok; exact hok
  | succ c ih =>
    intro bs r hok
    rw [loadManyWith] at hok ⊢
    cases hld : ld bs with
    | error e => simp only [hld] at hok; exact Except.noConfusion hok
    | ok p =>
      obtain ⟨x, r1⟩ := p
      simp only [hld] at hok
      simp only [h bs (x, r1) hld]
      cases hmany : loadManyWith ld c r1 with
      | error e => simp only [hmany] at hok; exact Except.noConfusion hok
      | ok q =>
        simp only [hmany] at hok
        simp only [ih r1 q hmany]
        exact hok

theorem loadPairsWith_mono {ld ld2 : List ℕ → Except CborErr (HostValue × List ℕ)}
    (h : ∀ bs r, ld bs = .ok r → ld2 bs = .ok r) :
    ∀ cnt acc bs r, loadPairsWith ld cnt acc bs = .ok r → loadPairsWith ld2 cnt acc bs = .ok r := by
  intro cnt
  induction cnt with
  | zero => intro acc bs r hok; exact hok
  | succ c ih =>
    intro acc bs r hok
    rw [loadPairsWith] at hok ⊢
    cases hld : ld bs with
    | error e => simp only [hld] at hok; exact Except.noConfusion hok
    | ok p =>
      obtain ⟨k, r1⟩ := p
      simp only [hld] at hok
      simp only [h bs (k, r1) hld]
      cases hld2 : ld r1 with
      | error e => simp only [hld2] at hok; exact Except.noConfusion hok
      | ok q =>
        obtain ⟨vl, r2⟩ := q
        simp only [hld2] at hok
        simp only [h r1 (vl, r2) hld2]
        exact ih (dictStore acc k vl) r2 r hok

theorem cbor_loads_body_mono {ld ld2 : List ℕ → Except CborErr (HostValue × List ℕ)}
    (h : ∀ bs r, ld bs = .ok r → ld2 bs = .ok r) :
    ∀ fb bs r, cbor_loads_body ld fb bs = .ok r → cbor_loads_body ld2 fb bs = .ok r := by
  intro fb bs r hok
  rw [cbor_loads_body] at hok ⊢
  split_ifs at hok ⊢ <;> try exact hok
  · -- major type 4
    cases hli : cbor_load_int (fb % 32) bs with
    | error e => simp only [hli] at hok; exact Except.noConfusion hok
    | ok p =>
      obtain ⟨n, r1⟩ := p
      simp only [hli] at hok ⊢
      cases hmi : getMachineInt n with
      | error e => simp only [hmi] at hok; exact Except.noConfusion hok
      | ok cnt =>
        simp only [hmi] at hok ⊢
        cases hmany : loadManyWith ld cnt r1 with
        | error e => simp only [hmany] at hok; exact Except.noConfusion hok
        | ok q =>
          simp only [hmany] at hok
          simp only [loadManyWith_mono h cnt r1 q hmany]
          exact hok
  · -- major type 5
    cases hli : cbor_load_int (fb % 32) bs with
    | error e => simp only [hli] at hok; exact Except.noConfusion hok
    | ok p =>
      obtain ⟨n, r1⟩ := p
      simp only [hli] at hok ⊢
      cases hmi : getMachineInt n with
      | error e => simp only [hmi] at hok; exact Except.noConfusion hok
      | ok cnt =>
        simp only [hmi] at hok ⊢
        cases hpairs : loadPairsWith ld cnt .nil r1 with
        | error e => simp only [hpairs] at hok; exact Except.noConfusion hok
        | ok q =>
          simp only [hpairs] at hok
          simp only [loadPairsWith_mono h cnt .nil r1 q hpairs]
          exact hok

theorem cbor_loads_fuel_mono :
    ∀ f bs r, cbor_loads_fuel f bs = .ok r → ∀ g, f ≤ g → cbor_loads_fuel g bs = .ok r := by
  intro f
  induction f with
  | zero =>
    intro bs r hok
    rw [cbor_loads_fuel] at hok
    exact absurd hok (by simp)
  | succ f ih =>
    intro bs r hok g hg
    obtain ⟨g1, rfl⟩ : ∃ g1, g = g1 + 1 := ⟨g - 1, by omega⟩
    cases bs with
    | nil =>
      rw [cbor_loads_fuel] at hok
      exact hok
    | cons fb bs =>
      rw [cbor_loads_fuel] at hok ⊢
      exact cbor_loads_body_mono (fun bs2 r2 hh => ih bs2 r2 hh g1 (by omega)) fb bs r hok

/-! Section: The decoder is insensitive to bytes beyond those it consumes -/

theorem cbor_load_int_append (ai : ℕ) (ext : List ℕ) :
    ∀ bs n r, cbor_load_int ai bs = .ok (n, r) →
      cbor_load_int ai (bs ++ ext) = .ok (n, r ++ ext) := by
  intro bs n r hok
  by_cases h1 : ai < 24
  · simp only [cbor_load_int, if_pos h1] at hok ⊢
    simp only [Except.ok.injEq, Prod.mk.injEq] at hok
    obtain ⟨rfl, rfl⟩ := hok
    rfl
  · by_cases h2 : ai ≤ 27
    · simp only [cbor_load_int, if_neg h1, if_pos h2] at hok ⊢
      by_cases h3 : bs.length < 2 ^ (ai - 24)
      · rw [if_pos h3] at hok
        exact Except.noConfusion hok
      · rw [if_neg h3] at hok
        rw [if_neg (by rw [List.length_append]; omega)]
        rw [List.take_append_of_le_length (by omega),
          List.drop_append_of_le_length (by omega)]
        simp only [Except.ok.injEq, Prod.mk.injEq] at hok
        obtain ⟨rfl, rfl⟩ := hok
        rfl
    · simp only [cbor_load_int, if_neg h1, if_neg h2] at hok
      exact Except.noConfusion hok

theorem cbor_load_half_float_append (ext : List ℕ) :
    ∀ bs v r, cbor_load_half_float bs = .ok (v, r) →
      cbor_load_half_float (bs ++ ext) = .ok (v, r ++ ext) := by
  intro bs v r hok
  match bs with
  | [] => exact Except.noConfusion hok
  | [b0] => exact Except.noConfusion hok
  | b0 :: b1 :: rest =>
    simp only [cbor_load_half_float, List.cons_append] at hok ⊢
    split_ifs at hok ⊢ <;>
      · simp only [Except.ok.injEq, Prod.mk.injEq] at hok
        obtain ⟨rfl, rfl⟩ := hok
        rfl

theorem cbor_load_float_append (ext : List ℕ) :
    ∀ bs v r, cbor_load_float bs = .ok (v, r) →
      cbor_load_float (bs ++ ext) = .ok (v, r ++ ext) := by
  intro bs v r hok
  simp only [cbor_load_float] at hok ⊢
  by_cases h : bs.length < 4
  · rw [if_pos h] at hok
    exact Except.noConfusion hok
  · rw [if_neg h] at hok
    rw [if_neg (by rw [List.length_append]; omega)]
    rw [List.take_append_of_le_length (by omega), List.drop_append_of_le_length (by omega)]
    simp only [Except.ok.injEq, Prod.mk.injEq] at hok
    obtain ⟨rfl, rfl⟩ := hok
    rfl

theorem cbor_load_double_append (ext : List ℕ) :
    ∀ bs v r, cbor_load_double bs = .ok (v, r) →
      cbor_load_double (bs ++ ext) = .ok (v, r ++ ext) := by
  intro bs v r hok
  simp only [cbor_load_double] at hok ⊢
  by_cases h : bs.length < 8
  · rw [if_pos h] at hok
    exact Except.noConfusion hok
  · rw [if_neg h] at hok
    rw [if_neg (by rw [List.length_append]; omega)]
    rw [List.take_append_of_le_length (by omega), List.drop_append_of_le_length (by omega)]
    simp only [Except.ok.injEq, Prod.mk.injEq] at hok
    obtain ⟨rfl, rfl⟩ := hok
    rfl

theorem cbor_load_special_append (ai : ℕ) (ext : List ℕ) :
    ∀ bs v r, cbor_load_special ai bs = .ok (v, r) →
      cbor_load_special ai (bs ++ ext) = .ok (v, r ++ ext) := by
  intro bs v r hok
  simp only [cbor_load_special] at hok ⊢
  split_ifs at hok ⊢ <;>
    first
      | (simp only [Except.ok.injEq, Prod.mk.injEq] at hok
         obtain ⟨rfl, rfl⟩ := hok
         rfl)
      | exact cbor_load_half_float_append ext bs v r hok
      | exact cbor_load_float_append ext bs v r hok
      | exact cbor_load_double_append ext bs v r hok

theorem loadManyWith_append (ext : List ℕ)
    {ld : List ℕ → Except CborErr (HostValue × List ℕ)}
    (h : ∀ bs v r, ld bs = .ok (v, r) → ld (bs ++ ext) = .ok (v, r ++ ext)) :
    ∀ cnt bs vs r, loadManyWith ld cnt bs = .ok (vs, r) →
      loadManyWith ld cnt (bs ++ ext) = .ok (vs, r ++ ext) := by
  intro cnt
  induction cnt with
  | zero =>
    intro bs vs r hok
    simp only [loadManyWith] at hok ⊢
    simp only [Except.ok.injEq, Prod.mk.injEq] at hok
    obtain ⟨rfl, rfl⟩ := hok
    rfl
  | succ c ih =>
    intro bs vs r hok
    rw [loadManyWith] at hok ⊢
    cases hld : ld bs with
    | error e => simp only [hld] at hok; exact Except.noConfusion hok
    | ok p =>
      obtain ⟨x, r1⟩ := p
      simp only [hld] at hok
      simp only [h bs x r1 hld]
      cases hmany : loadManyWith ld c r1 with
      | error e => simp only [hmany] at hok; exact Except.noConfusion hok
      | ok q =>
        obtain ⟨xs, r2⟩ := q
        simp only [hmany] at hok
        simp only [ih r1 xs r2 hmany]
        simp only [Except.ok.injEq, Prod.mk.injEq] at hok
        obtain ⟨rfl, rfl⟩ := hok
        rfl

theorem loadPairsWith_append (ext : List ℕ)
    {ld : List ℕ → Except CborErr (HostValue × List ℕ)}
    (h : ∀ bs v r, ld bs = .ok (v, r) → ld (bs ++ ext) = .ok (v, r ++ ext)) :
    ∀ cnt acc bs ps r, loadPairsWith ld cnt acc bs = .ok (ps, r) →
      loadPairsWith ld cnt acc (bs ++ ext) = .ok (ps, r ++ ext) := by
  intro cnt
  induction cnt with
  | zero =>
    intro acc bs ps r hok
    simp only [loadPairsWith] at hok ⊢
    simp only [Except.ok.injEq, Prod.mk.injEq] at hok
    obtain ⟨rfl, rfl⟩ := hok
    rfl
  | succ c ih =>
    intro acc bs ps r hok
    rw [loadPairsWith] at hok ⊢
    cases hld : ld bs with
    | error e => simp only [hld] at hok; exact Except.noConfusion hok
    | ok p =>
      obtain ⟨k, r1⟩ := p
      simp only [hld] at hok
      simp only [h bs k r1 hld]
      cases hld2 : ld r1 with
      | error e => simp only [hld2] at hok; exact Except.noConfusion hok
      | ok q =>
        obtain ⟨vl, r2⟩ := q
        simp only [hld2] at hok
        simp only [h r1 vl r2 hld2]
        exact ih (dictStore acc k vl) r2 ps r hok

theorem cbor_loads_body_append (ext : List ℕ)
    {ld : List ℕ → Except CborErr (HostValue × List ℕ)}
    (h : ∀ bs v r, ld bs = .ok (v, r) → ld (bs ++ ext) = .ok (v, r ++ ext)) :
    ∀ fb bs v r, cbor_loads_body ld fb bs = .ok (v, r) →
      cbor_loads_body ld fb (bs ++ ext) = .ok (v, r ++ ext) := by
  intro fb bs v r hok
  rw [cbor_loads_body] at hok ⊢
  split_ifs at hok ⊢
  · -- major type 0
    cases hli : cbor_load_int (fb % 32) bs with
    | error e => simp only [hli] at hok; exact Except.noConfusion hok
    | ok p =>
      obtain ⟨n, r1⟩ := p
      simp only [hli] at hok
      simp only [cbor_load_int_append (fb % 32) ext bs n r1 hli]
      simp only [Except.ok.injEq, Prod.mk.injEq] at hok
      obtain ⟨rfl, rfl⟩ := hok
      rfl
  · -- major type 1
    cases hli : cbor_load_int (fb % 32) bs with
    | error e => simp only [hli] at hok; exact Except.noConfusion hok
    | ok p =>
      obtain ⟨n, r1⟩ := p
      simp only [hli] at hok
      simp only [cbor_load_int_append (fb % 32) ext bs n r1 hli]
      simp only [Except.ok.injEq, Prod.mk.injEq] at hok
      obtain ⟨rfl, rfl⟩ := hok
      rfl
  · -- major type 2
    cases hli : cbor_load_int (fb % 32) bs with
    | error e => simp only [hli] at hok; exact Except.noConfusion hok
    | ok p =>
      obtain ⟨n, r1⟩ := p
      simp only [hli] at hok
      simp only [cbor_load_int_append (fb % 32) ext bs n r1 hli]
      cases hmi : getMachineInt n with
      | error e => simp only [hmi] at hok; exact Except.noConfusion hok
      | ok len =>
        simp only [hmi] at hok ⊢
        by_cases hl : r1.length < len
        · rw [if_pos hl] at hok
          exact Except.noConfusion hok
        · rw [if_neg hl] at hok
          rw [if_neg (by rw [List.length_append]; omega)]
          rw [List.take_append_of_le_length (by omega),
            List.drop_append_of_le_length (by omega)]
          simp only [Except.ok.injEq, Prod.mk.injEq] at hok
          obtain ⟨rfl, rfl⟩ := hok
          rfl
  · -- major type 3
    cases hli : cbor_load_int (fb % 32) bs with
    | error e => simp only [hli] at hok; exact Except.noConfusion hok
    | ok p =>
      obtain ⟨n, r1⟩ := p
      simp only [hli] at hok
      simp only [cbor_load_int_append (fb % 32) ext bs n r1 hli]
      cases hmi : getMachineInt n with
      | error e => simp only [hmi] at hok; exact Except.noConfusion hok
      | ok len =>
        simp only [hmi] at hok ⊢
        by_cases hl : r1.length < len
        · rw [if_pos hl] at hok
          exact Except.noConfusion hok
        · rw [if_neg hl] at hok
          rw [if_neg (by rw [List.length_append]; omega)]
          rw [List.take_append_of_le_length (by omega),
            List.drop_append_of_le_length (by omega)]
          simp only [Except.ok.injEq, Prod.mk.injEq] at hok
          obtain ⟨rfl, rfl⟩ := hok
          rfl
  · -- major type 4
    cases hli : cbor_load_int (fb % 32) bs with
    | error e => simp only [hli] at hok; exact Except.noConfusion hok
    | ok p =>
      obtain ⟨n, r1⟩ := p
      simp only [hli] at hok
      simp only [cbor_load_int_append (fb % 32) ext bs n r1 hli]
      cases hmi : getMachineInt n with
      | error e => simp only [hmi] at hok; exact Except.noConfusion hok
      | ok cnt =>
        simp only [hmi] at hok ⊢
        cases hmany : loadManyWith ld cnt r1 with
        | error e => simp only [hmany] at hok; exact Except.noConfusion hok
        | ok q =>
          obtain ⟨xs, r2⟩ := q
          simp only [hmany] at hok
          simp only [loadManyWith_append ext h cnt r1 xs r2 hmany]
          simp only [Except.ok.injEq, Prod.mk.injEq] at hok
          obtain ⟨rfl, rfl⟩ := hok
          rfl
  · -- major type 5
    cases hli : cbor_load_int (fb % 32) bs with
    | error e => simp only [hli] at hok; exact Except.noConfusion hok
    | ok p =>
      obtain ⟨n, r1⟩ := p
      simp only [hli] at hok
      simp only [cbor_load_int_append (fb % 32) ext bs n r1 hli]
      cases hmi : getMachineInt n with
      | error e => simp only [hmi] at hok; exact Except.noConfusion hok
      | ok cnt =>
        simp only [hmi] at hok ⊢
        cases hpairs : loadPairsWith ld cnt .nil r1 with
        | error e => simp only [hpairs] at hok; exact Except.noConfusion hok
        | ok q =>
          obtain ⟨ps, r2⟩ := q
          simp only [hpairs] at hok
          simp only [loadPairsWith_append ext h cnt .nil r1 ps r2 hpairs]
          simp only [Except.ok.injEq, Prod.mk.injEq] at hok
          obtain ⟨rfl, rfl⟩ := hok
          rfl
  all_goals
    first
      | exact Except.noConfusion hok
      | exact cbor_load_special_append (fb % 32) ext bs v r hok

theorem cbor_loads_fuel_append (ext : List ℕ) :
    ∀ f bs v r, cbor_loads_fuel f bs = .ok (v, r) →
      cbor_loads_fuel f (bs ++ ext) = .ok (v, r ++ ext) := by
  intro f
  induction f with
  | zero =>
    intro bs v r hok
    rw [cbor_loads_fuel] at hok
    exact Except.noConfusion hok
  | succ f ih =>
    intro bs v r hok
    cases bs with
    | nil =>
      rw [cbor_loads_fuel] at hok
      exact Except.noConfusion hok
    | cons fb bs =>
      rw [cbor_loads_fuel] at hok
      rw [show (fb :: bs) ++ ext = fb :: (bs ++ ext) from rfl, cbor_loads_fuel]
      exact cbor_loads_body_append ext (fun bs2 v2 r2 hh => ih bs2 v2 r2 hh) fb bs v r hok

/-! Section: Claim C9 -/

/-- Claim C9: if a buffer is exactly one complete well-formed top-level item, then
decoding that buffer followed by arbitrary trailing bytes succeeds, returns the same
value, leaves exactly the trailing bytes unconsumed, and `cbor_decode` gives the same
result as on the bytes of the item alone. -/
theorem c9_trailing_bytes_ignored (bs : List ℕ) (v : HostValue)
    (h : cbor_loads bs = .ok (v, [])) (t : List ℕ) :
    cbor_loads (bs ++ t) = .ok (v, t)
    ∧ cbor_decode (bs ++ t) = .ok v
    ∧ cbor_decode bs = .ok v := by
  have h1 : cbor_loads_fuel (bs.length + 1) bs = .ok (v, []) := h
  have h2 : cbor_loads_fuel ((bs ++ t).length + 1) bs = .ok (v, []) :=
    cbor_loads_fuel_mono (bs.length + 1) bs (v, []) h1 ((bs ++ t).length + 1)
      (by rw [List.length_append]; omega)
  have h3 : cbor_loads_fuel ((bs ++ t).length + 1) (bs ++ t) = .ok (v, [] ++ t) :=
    cbor_loads_fuel_append t ((bs ++ t).length + 1) bs v [] h2
  have h4 : cbor_loads (bs ++ t) = .ok (v, t) := by
    rw [cbor_loads]
    simpa using h3
  refine ⟨h4, ?_, ?_⟩
  · rw [cbor_decode, h4]
  · rw [cbor_decode, h]

/-- Witness for C9: the two-byte item `18 ff` (integer 255) decodes identically with a
stray `0x99` appended, which is returned unconsumed. -/
theorem c9_trailing_bytes_ignored_witness :
    cbor_loads ([0x18, 0xff] ++ [0x99]) = .ok (.int 255, [0x99])
    ∧ cbor_decode ([0x18, 0xff] ++ [0x99]) = .ok (.int 255)
    ∧ cbor_decode [0x18, 0xff] = .ok (.int 255) :=
  c9_trailing_bytes_ignored [0x18, 0xff] (.int 255) rfl [0x99]

/-! Section: Claim C8 -/

/-- Claim C8: a well-formed major-type-1 item whose additional-information-derived
unsigned value is `n` decodes to exactly `-1 - n`: inline for `ai < 24`, and via the
big-endian extension bytes for `ai = 24 + k` (`k < 4`), in exact integer arithmetic. -/
theorem c8_negative_integer_decode :
    (∀ ai : ℕ, ai < 24 → ∀ ext : List ℕ,
      cbor_loads ((32 + ai) :: ext) = .ok (.int (-1 - ai), ext))
    ∧ (∀ k : ℕ, k < 4 → ∀ bs ext : List ℕ, bs.length = 2 ^ k →
      cbor_loads ((56 + k) :: (bs ++ ext)) = .ok (.int (-1 - fromBE bs), ext)) := by
  constructor
  · intro ai hai ext
    rw [cbor_loads, List.length_cons, cbor_loads_fuel]
    rw [cbor_loads_body]
    rw [if_neg (by omega), if_pos (by omega : (32 + ai) / 32 = 1)]
    rw [show (32 + ai) % 32 = ai from by omega]
    simp only [cbor_load_int, if_pos hai]
  · intro k hk bs ext hlen
    rw [cbor_loads, List.length_cons, cbor_loads_fuel]
    rw [cbor_loads_body]
    rw [if_neg (by omega), if_pos (by omega : (56 + k) / 32 = 1)]
    rw [show (56 + k) % 32 = 24 + k from by omega]
    simp only [cbor_load_int, if_neg (by omega : ¬(24 + k < 24)),
      if_pos (by omega : 24 + k ≤ 27), Nat.add_sub_cancel_left]
    rw [if_neg (by rw [List.length_append]; omega)]
    rw [← hlen, List.take_left, List.drop_left]

/-- Witness for C8: the 8-byte extension `3b ff ff ff ff ff ff ff ff`
(`n = 2^64 - 1`) decodes to `-2^64` without truncation. -/
theorem c8_negative_integer_decode_witness :
    cbor_loads [0x3b, 255, 255, 255, 255, 255, 255, 255, 255]
      = .ok (.int (-(2 ^ 64)), []) := by
  have h := c8_negative_integer_decode.2 3 (by omega) (List.replicate 8 255) [] rfl
  have hv : (-1 - (fromBE (List.replicate 8 255) : ℤ)) = -(2 ^ 64) := by decide
  rw [hv] at h
  exact h

/-! Section: Order theory of the canonical sort key -/

theorem bytesLe_total : ∀ x y : List ℕ, bytesLe x y = true ∨ bytesLe y x = true := by
  intro x
  induction x with
  | nil => intro y; left; rfl
  | cons a as ih =>
    intro y
    cases y with
    | nil => right; rfl
    | cons b bs =>
      simp only [bytesLe]
      by_cases h1 : a < b
      · left; rw [if_pos h1]
      · by_cases h2 : b < a
        · right; rw [if_pos h2]
        · rcases ih bs with h | h
          · left; rw [if_neg h1, if_neg h2]; exact h
          · right; rw [if_neg h2, if_neg h1]; exact h

theorem bytesLe_trans : ∀ x y z : List ℕ,
    bytesLe x y = true → bytesLe y z = true → bytesLe x z = true := by
  intro x
  induction x with
  | nil => intro y z h1 h2; rfl
  | cons a as ih =>
    intro y z h1 h2
    cases y with
    | nil => exact absurd h1 (by simp [bytesLe])
    | cons b bs =>
      cases z with
      | nil => exact absurd h2 (by simp [bytesLe])
      | cons c cs =>
        simp only [bytesLe] at h1 h2 ⊢
        by_cases hab : a < b
        · by_cases hbc : b < c
          · rw [if_pos (by omega : a < c)]
          · by_cases hcb : c < b
            · rw [if_neg hbc, if_pos hcb] at h2
              exact absurd h2 (by simp)
            · rw [if_pos (by omega : a < c)]
        · by_cases hba : b < a
          · rw [if_neg hab, if_pos hba] at h1
            exact absurd h1 (by simp)
          · rw [if_neg hab, if_neg hba] at h1
            by_cases hbc : b < c
            · rw [if_pos (by omega : a < c)]
            · by_cases hcb : c < b
              · rw [if_neg hbc, if_pos hcb] at h2
                exact absurd h2 (by simp)
              · rw [if_neg hbc, if_neg hcb] at h2
                rw [if_neg (by omega), if_neg (by omega)]
                exact ih bs cs h1 h2

theorem bytesLe_antisymm : ∀ x y : List ℕ,
    bytesLe x y = true → bytesLe y x = true → x = y := by
  intro x
  induction x with
  | nil =>
    intro y h1 h2
    cases y with
    | nil => rfl
    | cons b bs => exact absurd h2 (by simp [bytesLe])
  | cons a as ih =>
    intro y h1 h2
    cases y with
    | nil => exact absurd h1 (by simp [bytesLe])
    | cons b bs =>
      simp only [bytesLe] at h1 h2
      by_cases hab : a < b
      · rw [if_neg (by omega), if_pos hab] at h2
        exact absurd h2 (by simp)
      · by_cases hba : b < a
        · rw [if_neg hab, if_pos hba] at h1
          exact absurd h1 (by simp)
        · rw [if_neg hab, if_neg hba] at h1
          rw [if_neg hba, if_neg hab] at h2
          rw [show a = b from by omega, ih bs h1 h2]

theorem keyLeB_total : ∀ x y : List ℕ, keyLeB x y = true ∨ keyLeB y x = true := by
  intro x y
  simp only [keyLeB]
  by_cases h1 : x.headD 0 < y.headD 0
  · left; rw [if_pos h1]
  · by_cases h2 : y.headD 0 < x.headD 0
    · right; rw [if_pos h2]
    · by_cases h3 : x.length < y.length
      · left; rw [if_neg h1, if_neg h2, if_pos h3]
      · by_cases h4 : y.length < x.length
        · right; rw [if_neg h2, if_neg h1, if_pos h4]
        · rcases bytesLe_total x y with h | h
          · left; rw [if_neg h1, if_neg h2, if_neg h3, if_neg h4]; exact h
          · right; rw [if_neg h2, if_neg h1, if_neg h4, if_neg h3]; exact h

theorem keyLeB_trans : ∀ x y z : List ℕ,
    keyLeB x y = true → keyLeB y z = true → keyLeB x z = true := by
  intro x y z h1 h2
  simp only [keyLeB] at h1 h2 ⊢
  by_cases hxy : x.headD 0 < y.headD 0
  · by_cases hyz : y.headD 0 < z.headD 0
    · rw [if_pos (by omega : x.headD 0 < z.headD 0)]
    · by_cases hzy : z.headD 0 < y.headD 0
      · rw [if_neg hyz, if_pos hzy] at h2
        exact absurd h2 (by simp)
      · rw [if_pos (by omega : x.headD 0 < z.headD 0)]
  · by_cases hyx : y.headD 0 < x.headD 0
    · rw [if_neg hxy, if_pos hyx] at h1
      exact absurd h1 (by simp)
    · rw [if_neg hxy, if_neg hyx] at h1
      by_cases hyz : y.headD 0 < z.headD 0
      · rw [if_pos (by omega : x.headD 0 < z.headD 0)]
      · by_cases hzy : z.headD 0 < y.headD 0
        · rw [if_neg hyz, if_pos hzy] at h2
          exact absurd h2 (by simp)
        · rw [if_neg hyz, if_neg hzy] at h2
          rw [if_neg (by omega), if_neg (by omega)]
          by_cases lxy : x.length < y.length
          · by_cases lyz : y.length < z.length
            · rw [if_pos (by omega : x.length < z.length)]
            · by_cases lzy : z.length < y.length
              · rw [if_neg lyz, if_pos lzy] at h2
                exact absurd h2 (by simp)
              · rw [if_pos (by omega : x.length < z.length)]
          · by_cases lyx : y.length < x.length
            · rw [if_neg lxy, if_pos lyx] at h1
              exact absurd h1 (by simp)
            · rw [if_neg lxy, if_neg lyx] at h1
              by_cases lyz : y.length < z.length
              · rw [if_pos (by omega : x.length < z.length)]
              · by_cases lzy : z.length < y.length
                · rw [if_neg lyz, if_pos lzy] at h2
                  exact absurd h2 (by simp)
                · rw [if_neg lyz, if_neg lzy] at h2
                  rw [if_neg (by omega), if_neg (by omega)]
                  exact bytesLe_trans x y z h1 h2

theorem keyLeB_antisymm : ∀ x y : List ℕ,
    keyLeB x y = true → keyLeB y x = true → x = y := by
  intro x y h1 h2
  simp only [keyLeB] at h1 h2
  by_cases hxy : x.headD 0 < y.headD 0
  · rw [if_neg (by omega), if_pos hxy] at h2
    exact absurd h2 (by simp)
  · by_cases hyx : y.headD 0 < x.headD 0
    · rw [if_neg hxy, if_pos hyx] at h1
      exact absurd h1 (by simp)
    · rw [if_neg hxy, if_neg hyx] at h1
      rw [if_neg hyx, if_neg hxy] at h2
      by_cases lxy : x.length < y.length
      · rw [if_neg (by omega), if_pos lxy] at h2
        exact absurd h2 (by simp)
      · by_cases lyx : y.length < x.length
        · rw [if_neg lxy, if_pos lyx] at h1
          exact absurd h1 (by simp)
        · rw [if_neg lxy, if_neg lyx] at h1
          rw [if_neg lyx, if_neg lxy] at h2
          exact bytesLe_antisymm x y h1 h2

theorem sorted_perm_nodup_eq :
    ∀ (l1 l2 : List (List ℕ × List ℕ)), l1.Perm l2 →
      l1.Sorted sortKeyRel → l2.Sorted sortKeyRel →
      (l1.map Prod.fst).Nodup → l1 = l2 := by
  intro l1
  induction l1 with
  | nil =>
    intro l2 hp _ _ _
    exact hp.nil_eq
  | cons a t1 ih =>
    intro l2 hp hs1 hs2 hnd
    cases l2 with
    | nil => exact absurd hp.symm.nil_eq (by simp)
    | cons b t2 =>
      simp only [List.map_cons, List.nodup_cons] at hnd
      by_cases hab : a = b
      · subst hab
        rw [ih t2 hp.cons_inv hs1.of_cons hs2.of_cons hnd.2]
      · exfalso
        have ha2 : a ∈ b :: t2 := hp.mem_iff.mp (List.mem_cons_self a t1)
        have hb1 : b ∈ a :: t1 := hp.symm.mem_iff.mp (List.mem_cons_self b t2)
        have ha2t : a ∈ t2 := by
          rcases List.mem_cons.mp ha2 with h | h
          · exact absurd h hab
          · exact h
        have hb1t : b ∈ t1 := by
          rcases List.mem_cons.mp hb1 with h | h
          · exact absurd h.symm hab
          · exact h
        have hr1 : keyLeB a.1 b.1 = true := List.rel_of_sorted_cons hs1 b hb1t
        have hr2 : keyLeB b.1 a.1 = true := List.rel_of_sorted_cons hs2 a ha2t
        have hkeys : a.1 = b.1 := keyLeB_antisymm a.1 b.1 hr1 hr2
        exact hnd.1 (hkeys ▸ List.mem_map_of_mem Prod.fst hb1t)

theorem cbor_pairs_encoded_eq_map (c : Bool) :
    ∀ ps : HostValuePairs,
      cbor_pairs_encoded c ps
        = ps.toList.map (fun kv => (cbor_dumps c kv.1 [], cbor_dumps c kv.2 []))
  | .nil => rfl
  | .cons k v ps => by
    simp [cbor_pairs_encoded, HostValuePairs.toList, cbor_pairs_encoded_eq_map c ps]

theorem hvPairs_length_toList : ∀ ps : HostValuePairs, ps.length = ps.toList.length
  | .nil => rfl
  | .cons k v ps => by
    simp [HostValuePairs.length, HostValuePairs.toList, hvPairs_length_toList ps]

/-- Claim C4 (amended): canonical encoding of a map is invariant under permutation of
its pairs **provided** the encoded key byte strings of the pairs are pairwise distinct
(distinct keys do not guarantee this: the counterexample above has two distinct keys
with identical encodings).  Under that proviso, the stable sort by the
`(first byte, length, full bytes)` tuple of the encoded key determines the emitted pair
order uniquely from the multiset of pairs. -/
theorem c4_amended_canonical_determinism (ps qs : HostValuePairs)
    (hp : ps.toList.Perm qs.toList)
    (hnd : ((cbor_pairs_encoded true ps).map Prod.fst).Nodup) :
    cbor_encode_canonical (.dict ps) = cbor_encode_canonical (.dict qs) := by
  have hlen : ps.length = qs.length := by
    rw [hvPairs_length_toList, hvPairs_length_toList]
    exact hp.length_eq
  have hpe : (cbor_pairs_encoded true ps).Perm (cbor_pairs_encoded true qs) := by
    rw [cbor_pairs_encoded_eq_map, cbor_pairs_encoded_eq_map]
    exact hp.map _
  letI : IsTotal (List ℕ × List ℕ) sortKeyRel := ⟨fun a b => keyLeB_total a.1 b.1⟩
  letI : IsTrans (List ℕ × List ℕ) sortKeyRel :=
    ⟨fun a b c h1 h2 => keyLeB_trans a.1 b.1 c.1 h1 h2⟩
  have hs1 := List.sorted_insertionSort sortKeyRel (cbor_pairs_encoded true ps)
  have hs2 := List.sorted_insertionSort sortKeyRel (cbor_pairs_encoded true qs)
  have hperm : (List.insertionSort sortKeyRel (cbor_pairs_encoded true ps)).Perm
      (List.insertionSort sortKeyRel (cbor_pairs_encoded true qs)) :=
    (List.perm_insertionSort sortKeyRel (cbor_pairs_encoded true ps)).trans
      (hpe.trans (List.perm_insertionSort sortKeyRel (cbor_pairs_encoded true qs)).symm)
  have hnd1 : ((List.insertionSort sortKeyRel (cbor_pairs_encoded true ps)).map
      Prod.fst).Nodup :=
    (((List.perm_insertionSort sortKeyRel (cbor_pairs_encoded true ps)).map
      Prod.fst).nodup_iff).mpr hnd
  have heq := sorted_perm_nodup_eq _ _ hperm hs1 hs2 hnd1
  show (List.insertionSort sortKeyRel (cbor_pairs_encoded true ps)).foldl
      (fun acc pr => acc ++ pr.1 ++ pr.2)
      (cbor_dump_int_with_major_type 5 ps.length [])
    = (List.insertionSort sortKeyRel (cbor_pairs_encoded true qs)).foldl
      (fun acc pr => acc ++ pr.1 ++ pr.2)
      (cbor_dump_int_with_major_type 5 qs.length [])
  rw [heq, hlen]

/-- Witness for C4 (amended) at the maps `{"b": 2, "a": 1}` and `{"a": 1, "b": 2}`. -/
theorem c4_amended_canonical_determinism_witness :
    cbor_encode_canonical
        (.dict (.cons (.str [98]) (.int 2) (.cons (.str [97]) (.int 1) .nil)))
      = cbor_encode_canonical
        (.dict (.cons (.str [97]) (.int 1) (.cons (.str [98]) (.int 2) .nil))) := by
  apply c4_amended_canonical_determinism
  · exact List.Perm.swap ((HostValue.str [97]), (HostValue.int 1))
      ((HostValue.str [98]), (HostValue.int 2)) []
  · decide

theorem loads_f9_dispatch (b0 b1 : ℕ) :
    cbor_loads [0xf9, b0, b1] = cbor_load_half_float [b0, b1] := rfl

/-- Claim C7 (amended): decoding a half-precision item reproduces the IEEE-754
binary16 → binary64 promotion exactly for signed zeros, subnormals (promoted to normal
doubles by the exponent bias shift), infinities and normal values, while every NaN
decodes to the fixed quiet NaN with the sign preserved and the payload **discarded**
(the claim as stated asks for the payload to be preserved; the counterexample above
refutes that part). -/
theorem c7_amended_half_decode_promotion (b0 b1 : ℕ) (h0 : b0 < 256) (h1 : b1 < 256) :
    cbor_loads [0xf9, b0, b1] = .ok (.float (promoteHalfSpec (b0 * 256 + b1)), []) := by
  rw [loads_f9_dispatch]
  simp only [cbor_load_half_float, promoteHalfSpec]
  rw [Nat.mod_eq_of_lt h0, Nat.mod_eq_of_lt h1]
  generalize halfSubnormalToDouble ((b0 * 256 + b1) % 1024) = H
  split_ifs <;>
    (simp only [Except.ok.injEq, Prod.mk.injEq, HostValue.float.injEq, and_true]; omega)

/-- Witness for C7 (amended) at the negative-infinity pattern `fc00`. -/
theorem c7_amended_half_decode_promotion_witness :
    cbor_loads [0xf9, 0xfc, 0x00] = .ok (.float (promoteHalfSpec (0xfc * 256 + 0x00)), []) :=
  c7_amended_half_decode_promotion 0xfc 0x00 (by decide) (by decide)
